import Mathlib

/-
Verification of the fractal rendering core of the mandelbrot-set repository
(src/utils.rs, src/utils/transform.rs, src/main.rs).

Modelling conventions: the Rust source computes in 64-bit floating point;
this development models f64 arithmetic by exact rational arithmetic over ℚ.
Rust f64 division by zero produces non-finite values and never panics, so
division is total in both settings; Lean's convention is x / 0 = 0.
usize is modelled by ℕ, and u8 pixel values by ℕ (the proofs establish that
every written pixel value fits in a byte). A Rust assert! failure (panic) is
modelled by an Option-valued function returning none.
-/

/-- Model of num::Complex with f64 components, the complex-number type used
throughout src/utils.rs and src/utils/transform.rs. -/
structure Cplx where
  re : ℚ
  im : ℚ
deriving DecidableEq

namespace Cplx

@[ext] theorem ext_re_im {a b : Cplx} (h1 : a.re = b.re) (h2 : a.im = b.im) :
    a = b := by
  cases a; cases b; cases h1; cases h2; rfl

instance : Zero Cplx := ⟨⟨0, 0⟩⟩

instance : One Cplx := ⟨⟨1, 0⟩⟩

instance : Add Cplx := ⟨fun a b => ⟨a.re + b.re, a.im + b.im⟩⟩

instance : Neg Cplx := ⟨fun a => ⟨-a.re, -a.im⟩⟩

instance : Sub Cplx := ⟨fun a b => ⟨a.re - b.re, a.im - b.im⟩⟩

instance : Mul Cplx :=
  ⟨fun a b => ⟨a.re * b.re - a.im * b.im, a.re * b.im + a.im * b.re⟩⟩

/-- num::Complex::norm_sqr: re*re + im*im. -/
def norm_sqr (z : Cplx) : ℚ := z.re * z.re + z.im * z.im

/-- num::Complex::conj. -/
def conj (z : Cplx) : Cplx := ⟨z.re, -z.im⟩

/-- num::Complex::inv: componentwise division by the squared norm. -/
def inv (z : Cplx) : Cplx := ⟨z.re / z.norm_sqr, -z.im / z.norm_sqr⟩

/-- num::Complex division: (a.re*b.re + a.im*b.im)/|b|², (a.im*b.re - a.re*b.im)/|b|². -/
instance : Div Cplx :=
  ⟨fun a b => ⟨(a.re * b.re + a.im * b.im) / b.norm_sqr,
               (a.im * b.re - a.re * b.im) / b.norm_sqr⟩⟩

/-- num::Complex: scalar multiplication by an f64, componentwise. -/
instance : HMul Cplx ℚ Cplx := ⟨fun z q => ⟨z.re * q, z.im * q⟩⟩

/-- num::Complex: scalar division by an f64, componentwise. -/
instance : HDiv Cplx ℚ Cplx := ⟨fun z q => ⟨z.re / q, z.im / q⟩⟩

/-- num::Complex::powu: natural-number power of a complex number (the source
uses exponentiation by squaring; over exact arithmetic the value is the
plain iterated product). -/
def powu (z : Cplx) : ℕ → Cplx
  | 0 => 1
  | n + 1 => z * z.powu n

/-- num::Complex::powi: integer power, inverting first for negative exponents. -/
def powi (z : Cplx) (n : ℤ) : Cplx :=
  if 0 ≤ n then z.powu n.toNat else z.inv.powu (-n).toNat

@[simp] theorem add_re (a b : Cplx) : (a + b).re = a.re + b.re := rfl

@[simp] theorem add_im (a b : Cplx) : (a + b).im = a.im + b.im := rfl

@[simp] theorem sub_re (a b : Cplx) : (a - b).re = a.re - b.re := rfl

@[simp] theorem sub_im (a b : Cplx) : (a - b).im = a.im - b.im := rfl

@[simp] theorem neg_re (a : Cplx) : (-a).re = -a.re := rfl

@[simp] theorem neg_im (a : Cplx) : (-a).im = -a.im := rfl

@[simp] theorem mul_re (a b : Cplx) : (a * b).re = a.re * b.re - a.im * b.im := rfl

@[simp] theorem mul_im (a b : Cplx) : (a * b).im = a.re * b.im + a.im * b.re := rfl

@[simp] theorem smul_re (a : Cplx) (q : ℚ) : (a * q).re = a.re * q := rfl

@[simp] theorem smul_im (a : Cplx) (q : ℚ) : (a * q).im = a.im * q := rfl

@[simp] theorem zero_re : (0 : Cplx).re = 0 := rfl

@[simp] theorem zero_im : (0 : Cplx).im = 0 := rfl

@[simp] theorem one_re : (1 : Cplx).re = 1 := rfl

@[simp] theorem one_im : (1 : Cplx).im = 0 := rfl

end Cplx

/-- The escape-test loop shared by the escape-time evaluators: starting from
iterate z at iteration index i, with fuel iterations remaining, return some i
at the first index whose iterate has squared modulus exceeding r2, applying
step once per non-escaping iteration; return none when the fuel is exhausted.
This is the loop body of escape_time in src/utils.rs:
for i in 0..limit { if z.norm_sqr() > 4.0 { return Some(i); } z = z*z + c; }. -/
def escape_loop (step : Cplx → Cplx) (r2 : ℚ) : Cplx → ℕ → ℕ → Option ℕ
  | _, _, 0 => none
  | z, i, fuel + 1 =>
    if r2 < z.norm_sqr then some i
    else escape_loop step r2 (step z) (i + 1) fuel

/-- escape_time from src/utils.rs: z starts at 0, the update is z = z*z + c,
the escape test is norm_sqr(z) > 4.0, run for at most limit iterations. -/
def escape_time (c : Cplx) (limit : ℕ) : Option ℕ :=
  escape_loop (fun z => z * z + c) 4 ⟨0, 0⟩ 0 limit

/-- The orbit examined by escape_time: n applications of z ↦ z*z + c to 0. -/
def mandel_orbit (c : Cplx) (n : ℕ) : Cplx :=
  (fun z => z * z + c)^[n] ⟨0, 0⟩

theorem escape_loop_some_iff (step : Cplx → Cplx) (r2 : ℚ) :
    ∀ (fuel : ℕ) (z : Cplx) (i j : ℕ),
      escape_loop step r2 z i fuel = some j ↔
        ∃ k, k < fuel ∧ j = i + k ∧ r2 < (step^[k] z).norm_sqr ∧
          ∀ m, m < k → ¬ r2 < (step^[m] z).norm_sqr := by
  intro fuel
  induction fuel with
  | zero => simp [escape_loop]
  | succ n ih =>
    intro z i j
    rw [escape_loop]
    by_cases h : r2 < z.norm_sqr
    · simp only [if_pos h]
      constructor
      · intro hj
        obtain rfl : i = j := by injection hj
        exact ⟨0, Nat.succ_pos n, by omega, by simpa using h, by omega⟩
      · rintro ⟨k, _, rfl, _, hmin⟩
        have hk0 : k = 0 := by
          by_contra hne
          exact hmin 0 (Nat.pos_of_ne_zero hne) (by simpa using h)
        simp [hk0]
    · simp only [if_neg h]
      rw [ih (step z) (i + 1) j]
      constructor
      · rintro ⟨k, hk, rfl, hesc, hmin⟩
        refine ⟨k + 1, by omega, by omega, ?_, ?_⟩
        · rwa [Function.iterate_succ_apply]
        · intro m hm
          cases m with
          | zero => simpa using h
          | succ m' =>
            rw [Function.iterate_succ_apply]
            exact hmin m' (by omega)
      · rintro ⟨k, hk, rfl, hesc, hmin⟩
        cases k with
        | zero => exact absurd (by simpa using hesc) h
        | succ k' =>
          refine ⟨k', by omega, by omega, ?_, ?_⟩
          · rwa [Function.iterate_succ_apply] at hesc
          · intro m hm
            have := hmin (m + 1) (by omega)
            rwa [Function.iterate_succ_apply] at this

theorem escape_loop_none_iff (step : Cplx → Cplx) (r2 : ℚ) :
    ∀ (fuel : ℕ) (z : Cplx) (i : ℕ),
      escape_loop step r2 z i fuel = none ↔
        ∀ k, k < fuel → ¬ r2 < (step^[k] z).norm_sqr := by
  intro fuel
  induction fuel with
  | zero => simp [escape_loop]
  | succ n ih =>
    intro z i
    rw [escape_loop]
    by_cases h : r2 < z.norm_sqr
    · simp only [if_pos h]
      constructor
      · intro hj; cases hj
      · intro hall
        exact absurd (by simpa using h) (hall 0 (Nat.succ_pos n))
    · simp only [if_neg h]
      rw [ih (step z) (i + 1)]
      constructor
      · intro hall m hm
        cases m with
        | zero => simpa using h
        | succ m' =>
          rw [Function.iterate_succ_apply]
          exact hall m' (by omega)
      · intro hall k hk
        have := hall (k + 1) (by omega)
        rwa [Function.iterate_succ_apply] at this

theorem escape_time_some_iff (c : Cplx) (limit i : ℕ) :
    escape_time c limit = some i ↔
      i < limit ∧ 4 < (mandel_orbit c i).norm_sqr ∧
        ∀ j, j < i → ¬ 4 < (mandel_orbit c j).norm_sqr := by
  rw [escape_time, escape_loop_some_iff]
  unfold mandel_orbit
  constructor
  · rintro ⟨k, hk, rfl, hesc, hmin⟩
    exact ⟨by omega, by simpa using hesc, fun j hj => hmin j (by omega)⟩
  · rintro ⟨hi, hesc, hmin⟩
    exact ⟨i, hi, by omega, hesc, hmin⟩

theorem escape_time_none_iff (c : Cplx) (limit : ℕ) :
    escape_time c limit = none ↔
      ∀ j, j < limit → ¬ 4 < (mandel_orbit c j).norm_sqr := by
  rw [escape_time, escape_loop_none_iff]
  unfold mandel_orbit
  exact Iff.rfl

/-- Modelled from the spec: the fractal family tag (FractalType in the real
utils.rs). main.rs and cli.rs refer to utils::FractalType, but the utils.rs
under src/ predates the polymorphic evaluator and does not define it; the
seven variants are taken from the spec's family table. -/
inductive FractalType where
  | Mandelbrot
  | Julia
  | BurningShip
  | Tricorn
  | Nova
  | Sin
  | Cos
deriving DecidableEq

/-- Modelled from the spec: the per-iteration update rule of the polymorphic
escape-time evaluator, one case per family, following the spec's table.
The f64 complex sine and cosine used by the Sin and Cos families are
transcendental, so they are taken as parameters csin and ccos. -/
def fractal_step (csin ccos : Cplx → Cplx) (family : FractalType) (power : ℤ)
    (c : Cplx) (julia_constant : Option Cplx) (z : Cplx) : Cplx :=
  match family with
  | .Mandelbrot => z.powi power + c
  | .Julia => z.powi power + julia_constant.getD ⟨-0.8, 0.156⟩
  | .BurningShip => (Cplx.mk |z.re| |z.im|) * (Cplx.mk |z.re| |z.im|) + c
  | .Tricorn => z.conj.powi power + c
  | .Nova => z - (z.powi power - 1) / ((Cplx.mk (power : ℚ) 0) * z.powi (power - 1)) + c
  | .Sin => csin z + c
  | .Cos => ccos z + c

/-- Modelled from the spec: the initial iterate of the polymorphic evaluator;
it equals the sampled point c when the family is Julia and 0 otherwise. -/
def initial_iterate (family : FractalType) (c : Cplx) : Cplx :=
  if family = FractalType.Julia then c else ⟨0, 0⟩

/-- Modelled from the spec: the polymorphic escape-time evaluator
escape_time(c, iteration_limit, power, escape_radius, family, julia_constant)
referenced by the render call in main.rs but absent from the utils.rs under
src/. The loop runs for at most iteration_limit iterations, testing
norm_sqr(z) > escape_radius² before applying the family's update. -/
def escape_time_family (csin ccos : Cplx → Cplx) (c : Cplx)
    (iteration_limit : ℕ) (power : ℤ) (escape_radius : ℚ)
    (family : FractalType) (julia_constant : Option Cplx) : Option ℕ :=
  escape_loop (fractal_step csin ccos family power c julia_constant)
    (escape_radius * escape_radius) (initial_iterate family c) 0 iteration_limit

/-- The orbit examined by the polymorphic evaluator: n applications of the
family's update rule to the family's initial iterate. -/
def family_orbit (csin ccos : Cplx → Cplx) (family : FractalType) (power : ℤ)
    (c : Cplx) (julia_constant : Option Cplx) (n : ℕ) : Cplx :=
  (fractal_step csin ccos family power c julia_constant)^[n]
    (initial_iterate family c)

/-- pixel_to_point from src/utils/transform.rs: linear interpolation of the
pixel grid across the viewport rectangle; the imaginary part decreases as
the pixel row increases. -/
def pixel_to_point (bounds : ℕ × ℕ) (pixel : ℕ × ℕ)
    (upper_left lower_right : Cplx) : Cplx :=
  let width : ℚ := lower_right.re - upper_left.re
  let height : ℚ := upper_left.im - lower_right.im
  ⟨upper_left.re + (pixel.1 : ℚ) * width / (bounds.1 : ℚ),
   upper_left.im - (pixel.2 : ℚ) * height / (bounds.2 : ℚ)⟩

/-- scale_point from src/utils/transform.rs: center + (original - center) * factor. -/
def scale_point (original center : Cplx) (factor : ℚ) : Cplx :=
  center + (original - center) * factor

/-- The per-pixel grayscale byte computed by render in src/utils.rs:
match escape_time(point, 255) { None => 0, Some(count) => 255 - count }. -/
def pixel_byte (point : Cplx) : ℕ :=
  match escape_time point 255 with
  | none => 0
  | some count => 255 - count

/-- render from src/utils.rs. The assert!(pixels.len() == bounds.0 * bounds.1)
is modelled by returning none (a panic) when the length check fails; the two
nested loops write pixels[row * bounds.0 + column] for each row and column. -/
def render (pixels : List ℕ) (bounds : ℕ × ℕ)
    (upper_left lower_right : Cplx) : Option (List ℕ) :=
  if pixels.length = bounds.1 * bounds.2 then
    some ((List.range bounds.2).foldl (fun buf row =>
      (List.range bounds.1).foldl (fun buf2 column =>
        buf2.set (row * bounds.1 + column)
          (pixel_byte (pixel_to_point bounds (column, row) upper_left lower_right)))
        buf) pixels)
  else none

/-- The list of buffer positions written by render's two nested loops,
row * width + column in loop order. -/
def write_indices (w h : ℕ) : List ℕ :=
  ((List.range h).map (fun row => (List.range w).map (fun column => row * w + column))).flatten

/-- The pixel bytes render produces, in row-major order: one byte per pixel,
pixel_byte of the mapped complex point. -/
def render_pure (w h : ℕ) (upper_left lower_right : Cplx) : List ℕ :=
  ((List.range h).map (fun row => (List.range w).map (fun column =>
    pixel_byte (pixel_to_point (w, h) (column, row) upper_left lower_right)))).flatten

/-- C1: for every input point c and valid parameters (iteration_limit > 0,
escape_radius > 0), the polymorphic escape-time evaluator returns some i only
if i < iteration_limit, and the returned i is the least iteration index
(0-indexed, escape test before the update of that iteration) at which the
squared modulus of the iterate exceeds escape_radius²; if no index below the
limit satisfies this, it returns none. -/
theorem claim_C1 (csin ccos : Cplx → Cplx) (c : Cplx) (iteration_limit : ℕ)
    (power : ℤ) (escape_radius : ℚ) (family : FractalType) (jc : Option Cplx)
    (hlim : 0 < iteration_limit) (hrad : 0 < escape_radius) :
    (∀ i, escape_time_family csin ccos c iteration_limit power escape_radius family jc = some i →
        i < iteration_limit ∧
        escape_radius * escape_radius <
          (family_orbit csin ccos family power c jc i).norm_sqr ∧
        ∀ j, j < i →
          (family_orbit csin ccos family power c jc j).norm_sqr ≤
            escape_radius * escape_radius) ∧
    (escape_time_family csin ccos c iteration_limit power escape_radius family jc = none ↔
        ∀ i, i < iteration_limit →
          (family_orbit csin ccos family power c jc i).norm_sqr ≤
            escape_radius * escape_radius) := by
  constructor
  · intro i hsome
    rw [escape_time_family, escape_loop_some_iff] at hsome
    obtain ⟨k, hk, rfl, hesc, hmin⟩ := hsome
    refine ⟨by omega, by simpa [family_orbit] using hesc, ?_⟩
    intro j hj
    have := hmin j (by omega)
    simpa [family_orbit, not_lt] using this
  · rw [escape_time_family, escape_loop_none_iff]
    constructor
    · intro hall i hi
      have := hall i hi
      simpa [family_orbit, not_lt] using this
    · intro hall k hk
      have := hall k hk
      simpa [family_orbit, not_lt] using this

theorem claim_C1_witness :
    (0 : ℕ) < 2 ∧ (0 : ℚ) < 2 ∧
    ((∀ i, escape_time_family (fun _ => ⟨0, 0⟩) (fun _ => ⟨0, 0⟩) ⟨3, 0⟩ 2 2 2
          FractalType.Mandelbrot none = some i →
        i < 2 ∧
        (2 : ℚ) * 2 <
          (family_orbit (fun _ => ⟨0, 0⟩) (fun _ => ⟨0, 0⟩) FractalType.Mandelbrot 2 ⟨3, 0⟩ none i).norm_sqr ∧
        ∀ j, j < i →
          (family_orbit (fun _ => ⟨0, 0⟩) (fun _ => ⟨0, 0⟩) FractalType.Mandelbrot 2 ⟨3, 0⟩ none j).norm_sqr ≤
            (2 : ℚ) * 2) ∧
    (escape_time_family (fun _ => ⟨0, 0⟩) (fun _ => ⟨0, 0⟩) ⟨3, 0⟩ 2 2 2
          FractalType.Mandelbrot none = none ↔
        ∀ i, i < 2 →
          (family_orbit (fun _ => ⟨0, 0⟩) (fun _ => ⟨0, 0⟩) FractalType.Mandelbrot 2 ⟨3, 0⟩ none i).norm_sqr ≤
            (2 : ℚ) * 2)) :=
  ⟨by norm_num, by norm_num,
    claim_C1 (fun _ => ⟨0, 0⟩) (fun _ => ⟨0, 0⟩) ⟨3, 0⟩ 2 2 2
      FractalType.Mandelbrot none (by norm_num) (by norm_num)⟩

/-- C2: in the polymorphic evaluator the initial iterate equals 0 for every
non-Julia family and equals the sampled point c for Julia, each iteration
applies the family's update rule, and the Mandelbrot update with supplied
integer exponent power computes z = z^power + c. -/
theorem claim_C2 (csin ccos : Cplx → Cplx) (power : ℤ) (c z : Cplx)
    (jc : Option Cplx) :
    (initial_iterate FractalType.Julia c = c) ∧
    (∀ family, family ≠ FractalType.Julia → initial_iterate family c = ⟨0, 0⟩) ∧
    (∀ family, family_orbit csin ccos family power c jc 0 = initial_iterate family c) ∧
    (∀ family n, family_orbit csin ccos family power c jc (n + 1) =
        fractal_step csin ccos family power c jc
          (family_orbit csin ccos family power c jc n)) ∧
    (fractal_step csin ccos FractalType.Mandelbrot power c jc z = z.powi power + c) := by
  refine ⟨rfl, ?_, fun _ => rfl, ?_, rfl⟩
  · intro family hfam
    simp [initial_iterate, hfam]
  · intro family n
    simp [family_orbit, Function.iterate_succ_apply']

theorem claim_C2_witness :
    FractalType.Mandelbrot ≠ FractalType.Julia ∧
    initial_iterate FractalType.Mandelbrot ⟨1, 2⟩ = ⟨0, 0⟩ :=
  ⟨by decide,
    (claim_C2 (fun _ => ⟨0, 0⟩) (fun _ => ⟨0, 0⟩) 2 ⟨1, 2⟩ ⟨0, 0⟩ none).2.1
      FractalType.Mandelbrot (by decide)⟩

/-- C9: escape_time is monotone and stable in its iteration limit: if it
escapes with index i below limit l, it escapes with the same index below any
limit l' ≥ l, and whenever two limits both yield an escape index the indices
agree. -/
theorem claim_C9 (c : Cplx) (l l' i : ℕ) :
    (l ≤ l' → escape_time c l = some i → escape_time c l' = some i) ∧
    (∀ i', escape_time c l = some i → escape_time c l' = some i' → i = i') := by
  constructor
  · intro hle hsome
    rw [escape_time_some_iff] at hsome ⊢
    exact ⟨by omega, hsome.2.1, hsome.2.2⟩
  · intro i' h1 h2
    rw [escape_time_some_iff] at h1 h2
    by_contra hne
    rcases Nat.lt_or_ge i i' with hlt | hge
    · exact h2.2.2 i hlt h1.2.1
    · exact h1.2.2 i' (by omega) h2.2.1

theorem claim_C9_witness :
    2 ≤ 5 ∧ escape_time ⟨3, 0⟩ 2 = some 1 ∧ escape_time ⟨3, 0⟩ 5 = some 1 := by
  have h2 : escape_time ⟨3, 0⟩ 2 = some 1 := by
    norm_num [escape_time, escape_loop, Cplx.norm_sqr]
  exact ⟨by norm_num, h2, (claim_C9 ⟨3, 0⟩ 2 5 1).1 (by norm_num) h2⟩

/-- C6: render evaluates each pixel with a fixed iteration cap of 255 and
stores byte 0 when escape_time returns none and 255 - min(count, 255) when it
returns some count; the count is always below 255, so the subtraction never
wraps or underflows and the stored value fits in a byte. -/
theorem claim_C6 (point : Cplx) :
    (escape_time point 255 = none → pixel_byte point = 0) ∧
    (∀ count, escape_time point 255 = some count →
      count < 255 ∧ pixel_byte point = 255 - min count 255 ∧
      0 < pixel_byte point ∧ pixel_byte point ≤ 255) := by
  constructor
  · intro h
    simp [pixel_byte, h]
  · intro count h
    have hlt : count < 255 := ((escape_time_some_iff point 255 count).mp h).1
    have hb : pixel_byte point = 255 - count := by simp [pixel_byte, h]
    have hmin : min count 255 = count := by omega
    refine ⟨hlt, by rw [hb, hmin], by omega, by omega⟩

theorem claim_C6_witness :
    escape_time ⟨3, 0⟩ 255 = some 1 ∧
    (1 < 255 ∧ pixel_byte ⟨3, 0⟩ = 255 - min 1 255 ∧
      0 < pixel_byte ⟨3, 0⟩ ∧ pixel_byte ⟨3, 0⟩ ≤ 255) := by
  have h : escape_time ⟨3, 0⟩ 255 = some 1 := by
    rw [escape_time_some_iff]
    refine ⟨by norm_num, by norm_num [mandel_orbit, Cplx.norm_sqr], ?_⟩
    intro j hj
    interval_cases j
    norm_num [mandel_orbit, Cplx.norm_sqr]
  exact ⟨h, (claim_C6 ⟨3, 0⟩).2 1 h⟩

/-- C5: for bounds with positive width and height, pixel_to_point is affine
with exact endpoints: pixel (0, 0) maps to the viewport's upper-left corner
and pixel (width, height) maps to its lower-right corner. -/
theorem claim_C5 (bounds : ℕ × ℕ) (upper_left lower_right : Cplx)
    (hw : 0 < bounds.1) (hh : 0 < bounds.2) :
    pixel_to_point bounds (0, 0) upper_left lower_right = upper_left ∧
    pixel_to_point bounds (bounds.1, bounds.2) upper_left lower_right = lower_right := by
  have hw2 : ((bounds.1 : ℚ)) ≠ 0 := Nat.cast_ne_zero.mpr (by omega)
  have hh2 : ((bounds.2 : ℚ)) ≠ 0 := Nat.cast_ne_zero.mpr (by omega)
  constructor
  · apply Cplx.ext_re_im <;> simp [pixel_to_point]
  · apply Cplx.ext_re_im <;> simp [pixel_to_point] <;> field_simp

theorem claim_C5_witness :
    0 < ((2, 3) : ℕ × ℕ).1 ∧ 0 < ((2, 3) : ℕ × ℕ).2 ∧
    (pixel_to_point (2, 3) (0, 0) ⟨-2, 2⟩ ⟨2, -2⟩ = ⟨-2, 2⟩ ∧
      pixel_to_point (2, 3) (2, 3) ⟨-2, 2⟩ ⟨2, -2⟩ = ⟨2, -2⟩) :=
  ⟨by decide, by decide, claim_C5 (2, 3) ⟨-2, 2⟩ ⟨2, -2⟩ (by decide) (by decide)⟩

/-- C7 counterexample: the claim says that with a zero bounds dimension
pixel_to_point fails with an InvalidBounds error rather than returning a
value; in the code it is a total function with no error path (Rust f64
division by zero yields non-finite values, modelled here by x / 0 = 0), so
at bounds (0, 0) it returns a value — the upper-left corner. -/
theorem claim_C7_counterexample :
    pixel_to_point (0, 0) (5, 7) ⟨-2, 2⟩ ⟨2, -2⟩ = Cplx.mk (-2) 2 := by
  apply Cplx.ext_re_im <;> norm_num [pixel_to_point]

/-- C7 (amended): pixel_to_point has no side effects and no failure modes at
all; it is total, returning a value even when a bounds dimension is zero —
no InvalidBounds error exists in the code. In the source, f64 division by
zero makes the affected coordinate non-finite; in the exact-arithmetic model
(x / 0 = 0) the affected coordinate degenerates to the corresponding
upper-left coordinate. -/
theorem claim_C7 (bounds pixel : ℕ × ℕ) (upper_left lower_right : Cplx) :
    (bounds.1 = 0 →
      (pixel_to_point bounds pixel upper_left lower_right).re = upper_left.re) ∧
    (bounds.2 = 0 →
      (pixel_to_point bounds pixel upper_left lower_right).im = upper_left.im) := by
  constructor
  · intro h
    simp [pixel_to_point, h]
  · intro h
    simp [pixel_to_point, h]

theorem claim_C7_witness :
    ((0, 0) : ℕ × ℕ).1 = 0 ∧
    (pixel_to_point (0, 0) (5, 7) ⟨-2, 2⟩ ⟨2, -2⟩).re = (Cplx.mk (-2) 2).re :=
  ⟨rfl, (claim_C7 (0, 0) (5, 7) ⟨-2, 2⟩ ⟨2, -2⟩).1 rfl⟩

/-- C8: a scale factor of exactly 1.0 is a no-op: scale_point returns a point
equal to the original corner for every corner and every focal point. -/
theorem claim_C8 (corner focal_point : Cplx) :
    scale_point corner focal_point 1 = corner := by
  apply Cplx.ext_re_im <;> simp [scale_point]

/-- Sequential writes into a buffer: set_seq buf s vs overwrites the
positions s, s+1, ... of buf with the values vs, in order. This captures the
write pattern of render's nested loops. -/
def set_seq : List ℕ → ℕ → List ℕ → List ℕ
  | buf, _, [] => buf
  | buf, start, v :: vs => set_seq (buf.set start v) (start + 1) vs

theorem set_seq_append (vs ws : List ℕ) :
    ∀ (buf : List ℕ) (s : ℕ),
      set_seq buf s (vs ++ ws) = set_seq (set_seq buf s vs) (s + vs.length) ws := by
  induction vs with
  | nil => intro buf s; simp [set_seq]
  | cons v vs ih =>
    intro buf s
    have harith : s + 1 + vs.length = s + (vs.length + 1) := by omega
    simp only [List.cons_append, set_seq, List.length_cons, List.append_eq]
    rw [ih, harith]

theorem set_seq_cons (vs : List ℕ) :
    ∀ (buf : List ℕ) (x : ℕ) (s : ℕ),
      set_seq (x :: buf) (s + 1) vs = x :: set_seq buf s vs := by
  induction vs with
  | nil => intro buf x s; rfl
  | cons v vs ih =>
    intro buf x s
    simp only [set_seq, List.set]
    exact ih (buf.set s v) x (s + 1)

theorem set_seq_zero (vs : List ℕ) :
    ∀ (buf : List ℕ), vs.length ≤ buf.length →
      set_seq buf 0 vs = vs ++ buf.drop vs.length := by
  induction vs with
  | nil => intro buf h; simp [set_seq]
  | cons v vs ih =>
    intro buf h
    cases buf with
    | nil => simp at h
    | cons b rest =>
      simp only [set_seq, List.set]
      rw [set_seq_cons vs rest v 0]
      rw [ih rest (by simp at h; omega)]
      simp

theorem set_seq_spec (s : ℕ) :
    ∀ (buf : List ℕ) (vs : List ℕ), s + vs.length ≤ buf.length →
      set_seq buf s vs = buf.take s ++ vs ++ buf.drop (s + vs.length) := by
  induction s with
  | zero =>
    intro buf vs h
    rw [set_seq_zero vs buf (by omega)]
    simp
  | succ n ih =>
    intro buf vs h
    cases buf with
    | nil => simp at h
    | cons b rest =>
      rw [set_seq_cons vs rest b n]
      rw [ih rest vs (by simp at h; omega)]
      have harith : n + 1 + vs.length = n + vs.length + 1 := by omega
      rw [harith]
      simp

theorem set_seq_full (vs buf : List ℕ) (hlen : vs.length = buf.length) :
    set_seq buf 0 vs = vs := by
  rw [set_seq_zero vs buf (le_of_eq hlen), hlen]
  simp

theorem foldl_set_row (w : ℕ) (g : ℕ → ℕ) :
    ∀ (buf : List ℕ) (p : ℕ),
      (List.range w).foldl (fun b c => b.set (p + c) (g c)) buf =
        set_seq buf p ((List.range w).map g) := by
  induction w with
  | zero => intro buf p; simp [set_seq]
  | succ n ih =>
    intro buf p
    rw [List.range_succ, List.foldl_append, List.map_append, set_seq_append]
    simp only [List.foldl_cons, List.foldl_nil, List.map_cons, List.map_nil,
      List.length_map, List.length_range]
    rw [ih buf p]
    rfl

theorem flat_row_length (w : ℕ) (g : ℕ → List ℕ) (hg : ∀ r, (g r).length = w) :
    ∀ hh : ℕ, (((List.range hh).map g).flatten).length = hh * w := by
  intro hh
  induction hh with
  | zero => simp
  | succ n ih =>
    rw [List.range_succ, List.map_append, List.flatten_append, List.length_append, ih]
    simp [hg, Nat.succ_mul]

theorem render_foldl (w : ℕ) (f : ℕ → ℕ → ℕ) :
    ∀ (hh : ℕ) (buf : List ℕ),
      (List.range hh).foldl (fun b row =>
        (List.range w).foldl (fun b2 c => b2.set (row * w + c) (f c row)) b) buf =
      set_seq buf 0
        (((List.range hh).map (fun row => (List.range w).map (fun c => f c row))).flatten) := by
  intro hh
  induction hh with
  | zero => intro buf; simp [set_seq]
  | succ n ih =>
    intro buf
    rw [List.range_succ, List.foldl_append]
    simp only [List.foldl_cons, List.foldl_nil]
    rw [ih, foldl_set_row w (fun c => f c n) _ (n * w)]
    rw [List.map_append, List.flatten_append, set_seq_append]
    simp only [List.map_cons, List.map_nil, List.flatten_cons, List.flatten_nil,
      List.append_nil]
    congr 1
    rw [flat_row_length w (fun row => List.map (fun c => f c row) (List.range w))
      (fun r => by simp) n]
    omega

theorem render_eq_pure (pixels : List ℕ) (w hh : ℕ) (ul lr : Cplx)
    (hlen : pixels.length = w * hh) :
    render pixels (w, hh) ul lr = some (render_pure w hh ul lr) := by
  rw [render, if_pos hlen]
  congr 1
  rw [render_foldl w (fun c row => pixel_byte (pixel_to_point (w, hh) (c, row) ul lr)) hh pixels]
  exact set_seq_full _ pixels
    (by rw [flat_row_length w _ (fun r => by simp) hh, hlen, Nat.mul_comm])

theorem write_indices_eq_range (w : ℕ) :
    ∀ hh : ℕ, write_indices w hh = List.range (w * hh) := by
  intro hh
  induction hh with
  | zero => simp [write_indices]
  | succ n ih =>
    rw [write_indices, List.range_succ, List.map_append, List.flatten_append]
    have hprev : ((List.range n).map
        (fun row => (List.range w).map (fun column => row * w + column))).flatten =
        write_indices w n := rfl
    rw [hprev, ih]
    simp only [List.map_cons, List.map_nil, List.flatten_cons, List.flatten_nil,
      List.append_nil]
    rw [show w * (n + 1) = w * n + w by ring, List.range_add]
    congr 1
    simp [Nat.mul_comm]

/-- C10: under the precondition that the pixel slice length equals
width * height, render's length assertion succeeds, every buffer index
row * width + column computed by its loops (row < height, column < width) is
strictly below the slice length, and the loops write the slice's positions
exactly once each: the written indices are exactly 0, 1, ..., width*height-1. -/
theorem claim_C10 (pixels : List ℕ) (w hh : ℕ) (upper_left lower_right : Cplx)
    (hlen : pixels.length = w * hh) :
    (render pixels (w, hh) upper_left lower_right).isSome ∧
    (∀ row, row < hh → ∀ column, column < w → row * w + column < pixels.length) ∧
    (∀ i, i ∈ write_indices w hh → i < pixels.length) ∧
    write_indices w hh = List.range (w * hh) := by
  refine ⟨?_, ?_, ?_, write_indices_eq_range w hh⟩
  · rw [render_eq_pure pixels w hh upper_left lower_right hlen]
    rfl
  · intro row hr column hc
    have h2 : row + 1 ≤ hh := hr
    have h1 : row * w + w ≤ w * hh := by
      calc row * w + w = (row + 1) * w := by ring
        _ ≤ hh * w := mul_le_mul_right' h2 w
        _ = w * hh := Nat.mul_comm hh w
    rw [hlen]
    omega
  · intro i hi
    rw [write_indices_eq_range] at hi
    rw [hlen]
    exact List.mem_range.mp hi

theorem claim_C10_witness :
    (List.replicate 6 0).length = 2 * 3 ∧
    ((render (List.replicate 6 0) (2, 3) ⟨3, 4⟩ ⟨4, 3⟩).isSome ∧
    (∀ row, row < 3 → ∀ column, column < 2 →
      row * 2 + column < (List.replicate 6 0).length) ∧
    (∀ i, i ∈ write_indices 2 3 → i < (List.replicate 6 0).length) ∧
    write_indices 2 3 = List.range (2 * 3)) :=
  ⟨by decide, claim_C10 (List.replicate 6 0) 2 3 ⟨3, 4⟩ ⟨4, 3⟩ (by decide)⟩

/-- Fuel-driven model of Rust's slice::chunks_mut used in main.rs: split a
list into consecutive chunks of k elements, the last chunk possibly shorter,
never empty. The fuel argument (instantiated with the list length) makes the
recursion structural; chunks_mut panics for k = 0, a case the callers below
never reach since rows_per_band is at least 1. -/
def chunksGo {α : Type} (k : ℕ) : ℕ → List α → List (List α)
  | 0, _ => []
  | _, [] => []
  | fuel + 1, l => l.take k :: chunksGo k fuel (l.drop k)

/-- The chunks of a list, as produced by pixels.chunks_mut(k) in main.rs. -/
def chunks {α : Type} (k : ℕ) (l : List α) : List (List α) :=
  chunksGo k l.length l

/-- The per-band row count chosen by main.rs: bounds.1 / threads + 1. -/
def rows_per_band (height threads : ℕ) : ℕ := height / threads + 1

/-- The row-counts of the bands main.rs hands to the workers: the pixel
buffer vec![0; w * h] is split into chunks of rows_per_band * w bytes and
each band's height is its length divided by the image width. -/
def band_row_counts (w h threads : ℕ) : List ℕ :=
  (chunks (rows_per_band h threads * w) (List.replicate (w * h) (0 : ℕ))).map
    (fun band => band.length / w)

theorem chunksGo_nil {α : Type} (k : ℕ) :
    ∀ fuel : ℕ, chunksGo k fuel ([] : List α) = [] := by
  intro fuel
  cases fuel <;> rfl

theorem chunksGo_cons {α : Type} (k n : ℕ) (a : α) (as : List α) :
    chunksGo k (n + 1) (a :: as) =
      (a :: as).take k :: chunksGo k n ((a :: as).drop k) := rfl

theorem chunksGo_flatten {α : Type} (k : ℕ) (hk : 0 < k) :
    ∀ (fuel : ℕ) (l : List α), l.length ≤ fuel →
      (chunksGo k fuel l).flatten = l := by
  intro fuel
  induction fuel with
  | zero =>
    intro l hl
    have : l = [] := List.eq_nil_of_length_eq_zero (by omega)
    subst this
    rfl
  | succ n ih =>
    intro l hl
    cases l with
    | nil => simp [chunksGo_nil]
    | cons a as =>
      rw [chunksGo_cons, List.flatten_cons]
      have hdroplen : ((a :: as).drop k).length ≤ n := by
        simp only [List.length_drop, List.length_cons]
        simp only [List.length_cons] at hl
        omega
      rw [ih ((a :: as).drop k) hdroplen]
      exact List.take_append_drop k (a :: as)

theorem chunksGo_length_le {α : Type} (k : ℕ) (hk : 0 < k) :
    ∀ (fuel : ℕ) (l : List α) (m : ℕ), l.length ≤ k * m →
      (chunksGo k fuel l).length ≤ m := by
  intro fuel
  induction fuel with
  | zero =>
    intro l m _
    cases l <;> simp [chunksGo]
  | succ n ih =>
    intro l m hl
    cases l with
    | nil => simp [chunksGo_nil]
    | cons a as =>
      rw [chunksGo_cons]
      simp only [List.length_cons]
      simp only [List.length_cons] at hl
      obtain ⟨m1, rfl⟩ : ∃ m1, m = m1 + 1 := by
        refine ⟨m - 1, ?_⟩
        rcases Nat.eq_zero_or_pos m with hm | hm
        · subst hm; simp at hl
        · omega
      have hdrop : ((a :: as).drop k).length ≤ k * m1 := by
        simp only [List.length_drop, List.length_cons]
        rw [Nat.mul_add, Nat.mul_one] at hl
        omega
      have := ih ((a :: as).drop k) m1 hdrop
      omega

theorem chunksGo_heights_le (k : ℕ) :
    ∀ (fuel : ℕ) (l : List ℕ), ∀ c ∈ chunksGo k fuel l, c.length ≤ k := by
  intro fuel
  induction fuel with
  | zero => intro l c hc; simp [chunksGo] at hc
  | succ n ih =>
    intro l c hc
    cases l with
    | nil => rw [chunksGo_nil] at hc; simp at hc
    | cons a as =>
      rw [chunksGo_cons] at hc
      rcases List.mem_cons.mp hc with rfl | hmem
      · exact List.length_take_le k (a :: as)
      · exact ih ((a :: as).drop k) c hmem

theorem chunksGo_dropLast_full {α : Type} (k : ℕ) :
    ∀ (fuel : ℕ) (l : List α), ∀ c ∈ (chunksGo k fuel l).dropLast, c.length = k := by
  intro fuel
  induction fuel with
  | zero => intro l c hc; simp [chunksGo] at hc
  | succ n ih =>
    intro l c hc
    cases l with
    | nil => rw [chunksGo_nil] at hc; simp at hc
    | cons a as =>
      rw [chunksGo_cons] at hc
      cases hrest : chunksGo k n ((a :: as).drop k) with
      | nil => rw [hrest] at hc; simp at hc
      | cons r rs =>
        rw [hrest, List.dropLast_cons₂] at hc
        rcases List.mem_cons.mp hc with rfl | hmem
        · have hne : (a :: as).drop k ≠ [] := by
            intro hdrop
            rw [hdrop, chunksGo_nil] at hrest
            cases hrest
          have hklt : k < (a :: as).length := by
            by_contra hge
            exact hne (List.drop_eq_nil_of_le (by omega))
          rw [List.length_take]
          simp only [List.length_cons] at hklt ⊢
          omega
        · exact ih ((a :: as).drop k) c (by rw [hrest]; exact hmem)

theorem chunksGo_heights_sum (w rpb : ℕ) (hw : 0 < w) (hrpb : 0 < rpb) :
    ∀ (fuel : ℕ) (l : List ℕ) (m : ℕ), l.length = w * m → l.length ≤ fuel →
      ((chunksGo (rpb * w) fuel l).map (fun band => band.length / w)).sum = m := by
  intro fuel
  induction fuel with
  | zero =>
    intro l m hlm hl
    have hl0 : l = [] := List.eq_nil_of_length_eq_zero (by omega)
    subst hl0
    have hm : m = 0 := by
      rcases Nat.eq_zero_or_pos m with h0 | hpos
      · exact h0
      · exfalso
        have := Nat.mul_pos hw hpos
        simp at hlm
        omega
    simp [chunksGo, hm]
  | succ n ih =>
    intro l m hlm hl
    cases l with
    | nil =>
      have hm : m = 0 := by
        rcases Nat.eq_zero_or_pos m with h0 | hpos
        · exact h0
        · exfalso
          have := Nat.mul_pos hw hpos
          simp at hlm
          omega
      simp [chunksGo_nil, hm]
    | cons a as =>
      rw [chunksGo_cons, List.map_cons, List.sum_cons]
      by_cases hcase : (a :: as).length ≤ rpb * w
      · rw [List.take_of_length_le hcase, List.drop_eq_nil_of_le hcase, chunksGo_nil]
        simp only [List.map_nil, List.sum_nil, Nat.add_zero]
        rw [hlm, Nat.mul_div_cancel_left m hw]
      · push_neg at hcase
        have hm_gt : rpb < m := by
          have h1 : rpb * w < w * m := by rw [hlm] at hcase; exact hcase
          have h2 : w * rpb < w * m := by rw [Nat.mul_comm w rpb]; exact h1
          exact Nat.lt_of_mul_lt_mul_left h2
        obtain ⟨d, rfl⟩ : ∃ d, m = rpb + d := ⟨m - rpb, by omega⟩
        rw [List.length_take, Nat.min_eq_left (Nat.le_of_lt hcase),
          Nat.mul_div_cancel rpb hw]
        have hdlen : ((a :: as).drop (rpb * w)).length = w * d := by
          rw [List.length_drop, hlm, Nat.mul_add, Nat.mul_comm w rpb]
          omega
        have hdfuel : ((a :: as).drop (rpb * w)).length ≤ n := by
          rw [List.length_drop]
          have hkpos : 0 < rpb * w := Nat.mul_pos hrpb hw
          simp only [List.length_cons] at hl ⊢
          omega
        rw [ih ((a :: as).drop (rpb * w)) d hdlen hdfuel]

/-- C3 (amended): main.rs partitions the height rows into at most
worker_count contiguous, disjoint horizontal bands of
rows_per_band = height / worker_count + 1 rows each — floor division plus
one, not ceil(height / worker_count) — the final band possibly shorter; the
bands cover every row exactly once with no overlap, and for height = 10,
worker_count = 3 the band row-counts are {4, 4, 2}. -/
theorem claim_C3 (w h threads : ℕ) (hw : 0 < w) (ht : 0 < threads) :
    (band_row_counts w h threads).sum = h ∧
    (band_row_counts w h threads).length ≤ threads ∧
    (∀ c ∈ (band_row_counts w h threads).dropLast, c = rows_per_band h threads) ∧
    (∀ c ∈ band_row_counts w h threads, c ≤ rows_per_band h threads) ∧
    (chunks (rows_per_band h threads * w) (List.replicate (w * h) (0 : ℕ))).flatten =
      List.replicate (w * h) 0 ∧
    band_row_counts 1 10 3 = [4, 4, 2] := by
  have hrpb : 0 < rows_per_band h threads := Nat.succ_pos _
  have hk : 0 < rows_per_band h threads * w := Nat.mul_pos hrpb hw
  have hlen : (List.replicate (w * h) (0 : ℕ)).length = w * h :=
    List.length_replicate (w * h) 0
  refine ⟨?_, ?_, ?_, ?_, ?_, by decide⟩
  · unfold band_row_counts chunks
    exact chunksGo_heights_sum w (rows_per_band h threads) hw hrpb
      (List.replicate (w * h) (0 : ℕ)).length (List.replicate (w * h) (0 : ℕ)) h
      hlen (le_refl _)
  · unfold band_row_counts chunks
    rw [List.length_map]
    apply chunksGo_length_le _ hk
    rw [hlen]
    have hlt : h < rows_per_band h threads * threads := by
      have hd := Nat.lt_mul_div_succ h ht
      rw [rows_per_band]
      calc h < threads * (h / threads + 1) := hd
        _ = (h / threads + 1) * threads := Nat.mul_comm threads (h / threads + 1)
    calc w * h ≤ w * (rows_per_band h threads * threads) :=
          mul_le_mul_left' (le_of_lt hlt) w
      _ = rows_per_band h threads * w * threads := by ring
  · unfold band_row_counts
    intro c hc
    rw [← List.map_dropLast] at hc
    rw [List.mem_map] at hc
    obtain ⟨band, hband, rfl⟩ := hc
    rw [chunksGo_dropLast_full (rows_per_band h threads * w) _ _ band hband,
      Nat.mul_div_cancel (rows_per_band h threads) hw]
  · unfold band_row_counts
    intro c hc
    rw [List.mem_map] at hc
    obtain ⟨band, hband, rfl⟩ := hc
    have hle := chunksGo_heights_le (rows_per_band h threads * w) _ _ band hband
    calc band.length / w ≤ rows_per_band h threads * w / w :=
          Nat.div_le_div_right hle
      _ = rows_per_band h threads := Nat.mul_div_cancel (rows_per_band h threads) hw
  · unfold chunks
    exact chunksGo_flatten _ hk _ _ (le_refl _)

/-- C3 counterexample: for height = 10 and worker_count = 5 the claim
predicts worker_count = 5 bands of ceil(10/5) = 2 rows each — row-counts
[2, 2, 2, 2, 2] — but the code's rows_per_band is 10/5 + 1 = 3, producing
only 4 bands with row-counts [3, 3, 3, 1]. -/
theorem claim_C3_counterexample :
    band_row_counts 1 10 5 = [3, 3, 3, 1] ∧
    (10 + 5 - 1) / 5 = 2 ∧
    band_row_counts 1 10 5 ≠ List.replicate 5 ((10 + 5 - 1) / 5) := by
  refine ⟨by decide, by decide, by decide⟩

theorem claim_C3_witness :
    0 < 1 ∧ 0 < 3 ∧
    ((band_row_counts 1 10 3).sum = 10 ∧
     (band_row_counts 1 10 3).length ≤ 3 ∧
     (∀ c ∈ (band_row_counts 1 10 3).dropLast, c = rows_per_band 10 3) ∧
     (∀ c ∈ band_row_counts 1 10 3, c ≤ rows_per_band 10 3) ∧
     (chunks (rows_per_band 10 3 * 1) (List.replicate (1 * 10) (0 : ℕ))).flatten =
       List.replicate (1 * 10) 0 ∧
     band_row_counts 1 10 3 = [4, 4, 2]) :=
  ⟨by decide, by decide, claim_C3 1 10 3 (by decide) (by decide)⟩

/-- The per-band dispatch of main.rs: for each (band_idx, band) of the
chunked buffer, top = rows_per_band * band_idx, height = band.len() / width,
the band's viewport corners are the full viewport mapped through
pixel_to_point at rows top and top + height, and the band is rendered with
render. The concurrently spawned workers write disjoint slices and the
crossbeam scope joins them all, so the frame is modelled as the in-order
concatenation of the band results; any failing band (a worker panic) makes
the whole frame fail. -/
def render_bands (bounds : ℕ × ℕ) (upper_left lower_right : Cplx) (rpb : ℕ) :
    ℕ → List (List ℕ) → Option (List ℕ)
  | _, [] => some []
  | band_idx, band :: rest =>
    (render band (bounds.1, band.length / bounds.1)
        (pixel_to_point bounds (0, rpb * band_idx) upper_left lower_right)
        (pixel_to_point bounds (bounds.1, rpb * band_idx + band.length / bounds.1)
          upper_left lower_right)).bind
      (fun bandPixels =>
        (render_bands bounds upper_left lower_right rpb (band_idx + 1) rest).map
          (fun restPixels => bandPixels ++ restPixels))

/-- One frame of main.rs's render loop (lines 82–118): split the pixel
buffer into chunks of rows_per_band * width bytes and render every band. -/
def render_frame (pixels : List ℕ) (bounds : ℕ × ℕ)
    (upper_left lower_right : Cplx) (threads : ℕ) : Option (List ℕ) :=
  render_bands bounds upper_left lower_right (rows_per_band bounds.2 threads) 0
    (chunks (rows_per_band bounds.2 threads * bounds.1) pixels)

theorem band_pixel_to_point (w hh top hb c r : ℕ) (ul lr : Cplx)
    (hw : 0 < w) (hb0 : 0 < hb) :
    pixel_to_point (w, hb) (c, r)
      (pixel_to_point (w, hh) (0, top) ul lr)
      (pixel_to_point (w, hh) (w, top + hb) ul lr) =
    pixel_to_point (w, hh) (c, top + r) ul lr := by
  have hwQ : ((w : ℚ)) ≠ 0 := Nat.cast_ne_zero.mpr (by omega)
  have hbQ : ((hb : ℚ)) ≠ 0 := Nat.cast_ne_zero.mpr (by omega)
  apply Cplx.ext_re_im
  · simp only [pixel_to_point]
    push_cast
    field_simp
  · simp only [pixel_to_point]
    push_cast
    field_simp
    ring

theorem render_pure_band (w hh top hb : ℕ) (ul lr : Cplx)
    (hw : 0 < w) (hb0 : 0 < hb) :
    render_pure w hb
      (pixel_to_point (w, hh) (0, top) ul lr)
      (pixel_to_point (w, hh) (w, top + hb) ul lr) =
    ((List.range' top hb).map (fun row => (List.range w).map (fun c =>
      pixel_byte (pixel_to_point (w, hh) (c, row) ul lr)))).flatten := by
  unfold render_pure
  congr 1
  rw [List.range'_eq_map_range top hb, List.map_map]
  apply List.map_congr_left
  intro r hr
  simp only [Function.comp]
  apply List.map_congr_left
  intro c hc
  rw [band_pixel_to_point w hh top hb c r ul lr hw hb0]

theorem render_bands_spec (w hh : ℕ) (ul lr : Cplx) (rpb : ℕ)
    (hw : 0 < w) (hrpb : 0 < rpb) :
    ∀ (fuel : ℕ) (l : List ℕ) (i : ℕ),
      l.length ≤ fuel →
      rpb * i ≤ hh →
      l.length = w * (hh - rpb * i) →
      render_bands (w, hh) ul lr rpb i (chunksGo (rpb * w) fuel l) =
        some (((List.range' (rpb * i) (hh - rpb * i)).map (fun row =>
          (List.range w).map (fun c =>
            pixel_byte (pixel_to_point (w, hh) (c, row) ul lr)))).flatten) := by
  intro fuel
  induction fuel with
  | zero =>
    intro l i hf hle hlen
    have hl0 : l = [] := List.eq_nil_of_length_eq_zero (by omega)
    subst hl0
    have hm : hh - rpb * i = 0 := by
      rcases Nat.eq_zero_or_pos (hh - rpb * i) with h0 | hpos
      · exact h0
      · exfalso
        have := Nat.mul_pos hw hpos
        simp at hlen
        omega
    rw [chunksGo_nil, hm]
    simp [render_bands]
  | succ n ih =>
    intro l i hf hle hlen
    cases l with
    | nil =>
      have hm : hh - rpb * i = 0 := by
        rcases Nat.eq_zero_or_pos (hh - rpb * i) with h0 | hpos
        · exact h0
        · exfalso
          have := Nat.mul_pos hw hpos
          simp at hlen
          omega
      rw [chunksGo_nil, hm]
      simp [render_bands]
    | cons a as =>
      rw [chunksGo_cons]
      rw [render_bands]
      dsimp only
      have hmpos : 0 < hh - rpb * i := by
        rcases Nat.eq_zero_or_pos (hh - rpb * i) with h0 | hpos
        · exfalso; rw [h0, Nat.mul_zero] at hlen; simp at hlen
        · exact hpos
      by_cases hcase : (a :: as).length ≤ rpb * w
      · rw [List.take_of_length_le hcase, List.drop_eq_nil_of_le hcase, chunksGo_nil]
        have hband : (a :: as).length / w = hh - rpb * i := by
          rw [hlen, Nat.mul_div_cancel_left _ hw]
        rw [hband]
        rw [render_eq_pure (a :: as) w (hh - rpb * i)
          (pixel_to_point (w, hh) (0, rpb * i) ul lr)
          (pixel_to_point (w, hh) (w, rpb * i + (hh - rpb * i)) ul lr) hlen]
        rw [render_pure_band w hh (rpb * i) (hh - rpb * i) ul lr hw hmpos]
        simp [render_bands]
      · push_neg at hcase
        have hrows_gt : rpb < hh - rpb * i := by
          have h1 : rpb * w < w * (hh - rpb * i) := by rw [hlen] at hcase; exact hcase
          have h2 : w * rpb < w * (hh - rpb * i) := by
            rw [Nat.mul_comm w rpb]; exact h1
          exact Nat.lt_of_mul_lt_mul_left h2
        have htake_len : ((a :: as).take (rpb * w)).length = rpb * w := by
          rw [List.length_take, Nat.min_eq_left (Nat.le_of_lt hcase)]
        have hband : ((a :: as).take (rpb * w)).length / w = rpb := by
          rw [htake_len, Nat.mul_div_cancel rpb hw]
        rw [hband]
        rw [render_eq_pure ((a :: as).take (rpb * w)) w rpb
          (pixel_to_point (w, hh) (0, rpb * i) ul lr)
          (pixel_to_point (w, hh) (w, rpb * i + rpb) ul lr)
          (by rw [htake_len, Nat.mul_comm])]
        rw [render_pure_band w hh (rpb * i) rpb ul lr hw hrpb]
        have hle1 : rpb * (i + 1) ≤ hh := by
          rw [Nat.mul_add, Nat.mul_one]
          omega
        have hlen1 : ((a :: as).drop (rpb * w)).length = w * (hh - rpb * (i + 1)) := by
          rw [List.length_drop, hlen]
          have hsplit : hh - rpb * i = rpb + (hh - rpb * (i + 1)) := by
            rw [Nat.mul_add, Nat.mul_one]
            omega
          rw [hsplit, Nat.mul_add, Nat.mul_comm w rpb]
          omega
        have hfuel1 : ((a :: as).drop (rpb * w)).length ≤ n := by
          rw [List.length_drop]
          have hkpos : 0 < rpb * w := Nat.mul_pos hrpb hw
          simp only [List.length_cons] at hf ⊢
          omega
        rw [ih ((a :: as).drop (rpb * w)) (i + 1) hfuel1 hle1 hlen1]
        have hranges : List.range' (rpb * i) rpb ++
            List.range' (rpb * (i + 1)) (hh - rpb * (i + 1)) =
            List.range' (rpb * i) (hh - rpb * i) := by
          have hr := List.range'_append (rpb * i) rpb (hh - rpb * (i + 1)) 1
          rw [show rpb * i + 1 * rpb = rpb * (i + 1) from by ring] at hr
          rw [show hh - rpb * (i + 1) + rpb = hh - rpb * i from by
            rw [Nat.mul_add, Nat.mul_one]; omega] at hr
          exact hr
        rw [← hranges, List.map_append, List.flatten_append]
        rfl

/-- C4: for any positive worker count, rendering a frame through the banded
dispatch of main.rs — whose per-band viewport corners are recomputed by
mapping the band's top and bottom rows through pixel_to_point against the
full viewport — produces exactly the pixel buffer of a single-band render of
the whole image; in particular any two worker counts (1, 2, 8, ...) yield
byte-identical buffers. -/
theorem claim_C4 (pixels : List ℕ) (w hh : ℕ) (ul lr : Cplx) (threads : ℕ)
    (hw : 0 < w) (ht : 0 < threads) (hlen : pixels.length = w * hh) :
    render_frame pixels (w, hh) ul lr threads = render pixels (w, hh) ul lr := by
  rw [render_eq_pure pixels w hh ul lr hlen]
  unfold render_frame chunks
  dsimp only
  rw [render_bands_spec w hh ul lr (rows_per_band hh threads) hw (Nat.succ_pos _)
    pixels.length pixels 0 (le_refl _) (by simp) (by simpa using hlen)]
  congr 1
  rw [Nat.mul_zero, Nat.sub_zero]
  unfold render_pure
  congr 1
  rw [List.range'_eq_map_range 0 hh, List.map_map]
  simp [Function.comp]

theorem claim_C4_witness :
    0 < 2 ∧ 0 < 3 ∧ (List.replicate 4 0).length = 2 * 2 ∧
    render_frame (List.replicate 4 0) (2, 2) ⟨3, 4⟩ ⟨4, 3⟩ 3 =
      render (List.replicate 4 0) (2, 2) ⟨3, 4⟩ ⟨4, 3⟩ :=
  ⟨by decide, by decide, by decide,
    claim_C4 (List.replicate 4 0) 2 2 ⟨3, 4⟩ ⟨4, 3⟩ 3 (by decide) (by decide) (by decide)⟩
